import Mathlib

/-!
Verification of the TTS batch converter core: the text chunking algorithm
(src/utils/text_processor.py) and the batch job runner
(src/models/batch_processor.py, src/ui/batch_tab.py), shallowly embedded
over lists of characters and explicit runner states.
-/

namespace TTS

/-! ## Text model: Python string primitives -/

/-- Whitespace characters stripped by Python str.strip for the ASCII range. -/
def isPyWS (c : Char) : Bool :=
  c = ' ' || c = '\t' || c = '\n' || c = '\r' || c = '\x0b' || c = '\x0c'

/-- Python s.strip(): remove leading and trailing whitespace. -/
def strip (l : List Char) : List Char :=
  ((l.dropWhile isPyWS).reverse.dropWhile isPyWS).reverse

/-- Python slicing text[i:j]. -/
def slice (text : List Char) (i j : Nat) : List Char :=
  (text.drop i).take (j - i)

/-- Does pat occur in text starting at index i (entirely inside text)? -/
def matchesAt (text pat : List Char) (i : Nat) : Bool :=
  (text.drop i).take pat.length == pat

/-- Greatest index j with start ≤ j ≤ i at which pat matches, scanning downward. -/
def rfindDown (text pat : List Char) (start : Nat) : Nat → Option Nat
  | 0 => if start = 0 ∧ matchesAt text pat 0 = true then some 0 else none
  | i + 1 =>
      if start ≤ i + 1 ∧ matchesAt text pat (i + 1) = true then some (i + 1)
      else rfindDown text pat start i

/-- Python text.rfind(pat, start, stop): the greatest i with start ≤ i,
i + pat.length ≤ stop and pat occurring at i in text; none when absent
(Python returns -1). -/
def rfind (text pat : List Char) (start stop : Nat) : Option Nat :=
  if pat.length ≤ stop then rfindDown text pat start (stop - pat.length) else none

/-- Python max over rfind results, where none plays the role of -1. -/
def omax : Option Nat → Option Nat → Option Nat
  | none, b => b
  | some a, none => some a
  | some a, some b => some (max a b)

/-! ## The chunker: TextProcessor.split_into_chunks (text_processor.py 52-96) -/

/-- Fourth priority (lines 83-86): last space after pos + maxSize/3. -/
def chunkEndSpace (maxSize : Nat) (text : List Char) (pos ce : Nat) : Nat :=
  match rfind text [' '] pos ce with
  | some sp => if pos + maxSize / 3 < sp then sp + 1 else ce
  | none => ce

/-- Third priority (lines 74-81): last sentence end after pos + maxSize/2. -/
def chunkEndSentence (maxSize : Nat) (text : List Char) (pos ce : Nat) : Nat :=
  match omax (omax (rfind text ['.', ' '] pos ce) (rfind text ['!', ' '] pos ce))
      (rfind text ['?', ' '] pos ce) with
  | some se =>
      if pos + maxSize / 2 < se then se + 2 else chunkEndSpace maxSize text pos ce
  | none => chunkEndSpace maxSize text pos ce

/-- Second priority (lines 69-72): last line break after pos + maxSize/2. -/
def chunkEndLine (maxSize : Nat) (text : List Char) (pos ce : Nat) : Nat :=
  match rfind text ['\n'] pos ce with
  | some lb =>
      if pos + maxSize / 2 < lb then lb + 1 else chunkEndSentence maxSize text pos ce
  | none => chunkEndSentence maxSize text pos ce

/-- First priority (lines 64-67): last paragraph break after pos + maxSize/2. -/
def chunkEndPara (maxSize : Nat) (text : List Char) (pos ce : Nat) : Nat :=
  match rfind text ['\n', '\n'] pos ce with
  | some pb =>
      if pos + maxSize / 2 < pb then pb + 2 else chunkEndLine maxSize text pos ce
  | none => chunkEndLine maxSize text pos ce

/-- The window end chosen by one iteration of split_into_chunks
(text_processor.py lines 60-86). -/
def chunkEnd (maxSize : Nat) (text : List Char) (pos : Nat) : Nat :=
  if min (pos + maxSize) text.length < text.length then
    chunkEndPara maxSize text pos (min (pos + maxSize) text.length)
  else min (pos + maxSize) text.length

/-- The while loop of split_into_chunks (lines 58-94), with explicit fuel;
fuel = text.length suffices whenever maxSize is positive. -/
def splitGo (maxSize : Nat) (text : List Char) : Nat → Nat → List (List Char)
  | _, 0 => []
  | pos, fuel + 1 =>
      if pos < text.length then
        (if strip (slice text pos (chunkEnd maxSize text pos)) = [] then []
         else [strip (slice text pos (chunkEnd maxSize text pos))]) ++
        splitGo maxSize text (chunkEnd maxSize text pos) fuel
      else []

/-- TextProcessor.split_into_chunks (text_processor.py lines 52-96). -/
def split_into_chunks (maxSize : Nat) (text : List Char) : List (List Char) :=
  splitGo maxSize text 0 text.length

/-! ## Specification-side window end

The spec words each priority as "the last occurrence whose index exceeds the
threshold", i.e. an rfind whose lower search bound is the threshold plus one. -/

/-- Spec wording of the fourth priority: last space with index
above pos + maxSize/3; otherwise a hard cut at pos + maxSize. -/
def chunkEndSpaceSpec (maxSize : Nat) (text : List Char) (pos ce : Nat) : Nat :=
  match rfind text [' '] (pos + maxSize / 3 + 1) ce with
  | some sp => sp + 1
  | none => pos + maxSize

/-- Spec wording of the third priority: last sentence end with index
above pos + maxSize/2. -/
def chunkEndSentenceSpec (maxSize : Nat) (text : List Char) (pos ce : Nat) : Nat :=
  match omax (omax (rfind text ['.', ' '] (pos + maxSize / 2 + 1) ce)
      (rfind text ['!', ' '] (pos + maxSize / 2 + 1) ce))
      (rfind text ['?', ' '] (pos + maxSize / 2 + 1) ce) with
  | some se => se + 2
  | none => chunkEndSpaceSpec maxSize text pos ce

/-- Spec wording of the second priority: last line break with index
above pos + maxSize/2. -/
def chunkEndLineSpec (maxSize : Nat) (text : List Char) (pos ce : Nat) : Nat :=
  match rfind text ['\n'] (pos + maxSize / 2 + 1) ce with
  | some lb => lb + 1
  | none => chunkEndSentenceSpec maxSize text pos ce

/-- The window end as the specification words it: for each priority in order,
the last candidate whose index exceeds the stated threshold, the separator
characters included; otherwise a hard cut at pos + maxSize. -/
def chunkEndSpec (maxSize : Nat) (text : List Char) (pos : Nat) : Nat :=
  if min (pos + maxSize) text.length < text.length then
    match rfind text ['\n', '\n'] (pos + maxSize / 2 + 1) (min (pos + maxSize) text.length) with
    | some pb => pb + 2
    | none => chunkEndLineSpec maxSize text pos (min (pos + maxSize) text.length)
  else min (pos + maxSize) text.length

/-! ## Characterisation of rfind -/

theorem rfindDown_le {text pat : List Char} {start i j : Nat}
    (h : rfindDown text pat start i = some j) : start ≤ j ∧ j ≤ i := by
  induction i with
  | zero =>
      unfold rfindDown at h
      split at h
      · rename_i hc
        cases h
        exact ⟨Nat.le_of_eq hc.1, Nat.le_refl 0⟩
      · cases h
  | succ i ih =>
      unfold rfindDown at h
      split at h
      · rename_i hc
        cases h
        exact ⟨hc.1, Nat.le_refl _⟩
      · rcases ih h with ⟨h1, h2⟩
        exact ⟨h1, Nat.le_succ_of_le h2⟩

theorem rfindDown_matches {text pat : List Char} {start i j : Nat}
    (h : rfindDown text pat start i = some j) : matchesAt text pat j = true := by
  induction i with
  | zero =>
      unfold rfindDown at h
      split at h
      · rename_i hc; cases h; exact hc.2
      · cases h
  | succ i ih =>
      unfold rfindDown at h
      split at h
      · rename_i hc; cases h; exact hc.2
      · exact ih h

theorem rfindDown_greatest {text pat : List Char} {start i j : Nat}
    (h : rfindDown text pat start i = some j) :
    ∀ k, j < k → k ≤ i → matchesAt text pat k = false := by
  induction i with
  | zero =>
      intro k hk1 hk2
      omega
  | succ i ih =>
      unfold rfindDown at h
      split at h
      · rename_i hc
        cases h
        intro k hk1 hk2
        omega
      · rename_i hc
        intro k hk1 hk2
        rcases Nat.lt_or_ge k (i + 1) with hlt | hge
        · exact ih h k hk1 (by omega)
        · have hk : k = i + 1 := by omega
          subst hk
          have hle := rfindDown_le h
          by_cases hm : matchesAt text pat (i + 1) = true
          · exact absurd ⟨by omega, hm⟩ hc
          · exact Bool.eq_false_iff.mpr hm

theorem rfindDown_none {text pat : List Char} {start i : Nat}
    (h : rfindDown text pat start i = none) :
    ∀ k, start ≤ k → k ≤ i → matchesAt text pat k = false := by
  induction i with
  | zero =>
      intro k hk1 hk2
      interval_cases k
      unfold rfindDown at h
      split at h
      · cases h
      · rename_i hc
        by_cases hm : matchesAt text pat 0 = true
        · exact absurd ⟨by omega, hm⟩ hc
        · exact Bool.eq_false_iff.mpr hm
  | succ i ih =>
      unfold rfindDown at h
      split at h
      · cases h
      · rename_i hc
        intro k hk1 hk2
        rcases Nat.lt_or_ge k (i + 1) with hlt | hge
        · exact ih h k hk1 (by omega)
        · have hk : k = i + 1 := by omega
          subst hk
          by_cases hm : matchesAt text pat (i + 1) = true
          · exact absurd ⟨hk1, hm⟩ hc
          · exact Bool.eq_false_iff.mpr hm

theorem rfindDown_eq_some {text pat : List Char} {start i j : Nat}
    (hs : start ≤ j) (hj : j ≤ i) (hm : matchesAt text pat j = true)
    (hmax : ∀ k, j < k → k ≤ i → matchesAt text pat k = false) :
    rfindDown text pat start i = some j := by
  induction i with
  | zero =>
      have : j = 0 := by omega
      subst this
      unfold rfindDown
      rw [if_pos ⟨by omega, hm⟩]
  | succ i ih =>
      unfold rfindDown
      rcases Nat.lt_or_ge j (i + 1) with hlt | hge
      · rw [if_neg]
        · exact ih (by omega) (fun k hk1 hk2 => hmax k hk1 (by omega))
        · intro hc
          have := hmax (i + 1) hlt (Nat.le_refl _)
          rw [hc.2] at this
          cases this
      · have : j = i + 1 := by omega
        subst this
        rw [if_pos ⟨hs, hm⟩]

theorem rfindDown_eq_none {text pat : List Char} {start i : Nat}
    (h : ∀ k, start ≤ k → k ≤ i → matchesAt text pat k = false) :
    rfindDown text pat start i = none := by
  induction i with
  | zero =>
      unfold rfindDown
      rw [if_neg]
      intro hc
      have := h 0 (by omega) (Nat.le_refl _)
      rw [hc.2] at this
      cases this
  | succ i ih =>
      unfold rfindDown
      rw [if_neg]
      · exact ih fun k hk1 hk2 => h k hk1 (by omega)
      · intro hc
        have := h (i + 1) hc.1 (Nat.le_refl _)
        rw [hc.2] at this
        cases this

/-- Keep only values above m. With none as Python's -1, this is the effect on
an rfind result of raising the lower search bound to m + 1. -/
def ofilterGT (m : Nat) : Option Nat → Option Nat
  | some v => if m < v then some v else none
  | none => none

theorem rfind_high_start {text pat : List Char} {s m stop : Nat} (hs : s ≤ m + 1) :
    rfind text pat (m + 1) stop = ofilterGT m (rfind text pat s stop) := by
  unfold rfind
  split
  · rename_i hlen
    cases hfull : rfindDown text pat s (stop - pat.length) with
    | none =>
        rw [rfindDown_eq_none fun k hk1 hk2 =>
          rfindDown_none hfull k (by omega) hk2]
        rfl
    | some v =>
        rcases rfindDown_le hfull with ⟨hv1, hv2⟩
        by_cases hm : m < v
        · rw [rfindDown_eq_some (by omega) hv2 (rfindDown_matches hfull)
            (rfindDown_greatest hfull)]
          simp [ofilterGT, hm]
        · rw [rfindDown_eq_none fun k hk1 hk2 =>
            rfindDown_greatest hfull k (by omega) hk2]
          simp [ofilterGT, hm]
  · rfl

theorem ofilterGT_omax (m : Nat) (a b : Option Nat) :
    ofilterGT m (omax a b) = omax (ofilterGT m a) (ofilterGT m b) := by
  cases a with
  | none => cases b <;> rfl
  | some x =>
      cases b with
      | none =>
          simp only [omax, ofilterGT]
          by_cases hx : m < x <;> simp [hx, omax]
      | some y =>
          simp only [omax, ofilterGT]
          rcases Nat.le_total x y with h | h
          · rw [Nat.max_eq_right h]
            by_cases hy : m < y
            · by_cases hx : m < x <;>
                simp [hx, hy, omax, Nat.max_eq_right h]
            · have hx : ¬ m < x := by omega
              simp [hx, hy, omax]
          · rw [Nat.max_eq_left h]
            by_cases hx : m < x
            · by_cases hy : m < y <;>
                simp [hx, hy, omax, Nat.max_eq_left h]
            · have hy : ¬ m < y := by omega
              simp [hx, hy, omax]

/-! ## Equivalence of the code's window end with the spec's wording -/

theorem chunkEndSpace_eq (maxSize : Nat) (text : List Char) (pos ce : Nat)
    (h : ce = pos + maxSize) :
    chunkEndSpace maxSize text pos ce = chunkEndSpaceSpec maxSize text pos ce := by
  unfold chunkEndSpace chunkEndSpaceSpec
  rw [rfind_high_start (s := pos) (by omega)]
  cases hr : rfind text [' '] pos ce with
  | none => simp [ofilterGT, h]
  | some sp =>
      by_cases hsp : pos + maxSize / 3 < sp <;> simp [ofilterGT, hsp, h]

theorem chunkEndSentence_eq (maxSize : Nat) (text : List Char) (pos ce : Nat)
    (h : ce = pos + maxSize) :
    chunkEndSentence maxSize text pos ce = chunkEndSentenceSpec maxSize text pos ce := by
  unfold chunkEndSentence chunkEndSentenceSpec
  rw [rfind_high_start (s := pos) (by omega), rfind_high_start (s := pos) (by omega),
    rfind_high_start (s := pos) (by omega), ← ofilterGT_omax, ← ofilterGT_omax]
  cases hr : omax (omax (rfind text ['.', ' '] pos ce) (rfind text ['!', ' '] pos ce))
      (rfind text ['?', ' '] pos ce) with
  | none => simp [ofilterGT, chunkEndSpace_eq maxSize text pos ce h]
  | some se =>
      by_cases hse : pos + maxSize / 2 < se <;>
        simp [ofilterGT, hse, chunkEndSpace_eq maxSize text pos ce h]

theorem chunkEndLine_eq (maxSize : Nat) (text : List Char) (pos ce : Nat)
    (h : ce = pos + maxSize) :
    chunkEndLine maxSize text pos ce = chunkEndLineSpec maxSize text pos ce := by
  unfold chunkEndLine chunkEndLineSpec
  rw [rfind_high_start (s := pos) (by omega)]
  cases hr : rfind text ['\n'] pos ce with
  | none => simp [ofilterGT, chunkEndSentence_eq maxSize text pos ce h]
  | some lb =>
      by_cases hlb : pos + maxSize / 2 < lb <;>
        simp [ofilterGT, hlb, chunkEndSentence_eq maxSize text pos ce h]

theorem chunkEnd_eq_chunkEndSpec (maxSize : Nat) (text : List Char) (pos : Nat) :
    chunkEnd maxSize text pos = chunkEndSpec maxSize text pos := by
  unfold chunkEnd chunkEndSpec
  split
  · rename_i hlt
    have hce : min (pos + maxSize) text.length = pos + maxSize := by omega
    unfold chunkEndPara
    rw [rfind_high_start (s := pos) (by omega)]
    cases hr : rfind text ['\n', '\n'] pos (min (pos + maxSize) text.length) with
    | none => simp [ofilterGT, chunkEndLine_eq maxSize text pos _ hce]
    | some pb =>
        by_cases hpb : pos + maxSize / 2 < pb <;>
          simp [ofilterGT, hpb, chunkEndLine_eq maxSize text pos _ hce]
  · rfl

/-! ## Bounds on the window end -/

theorem rfind_le {text pat : List Char} {s stop j : Nat}
    (h : rfind text pat s stop = some j) :
    s ≤ j ∧ j + pat.length ≤ stop := by
  unfold rfind at h
  split at h
  · rename_i hlen
    rcases rfindDown_le h with ⟨h1, h2⟩
    exact ⟨h1, by omega⟩
  · cases h

theorem omax_eq_some {a b : Option Nat} {v : Nat} (h : omax a b = some v) :
    a = some v ∨ b = some v := by
  cases a with
  | none => right; exact h
  | some x =>
      cases b with
      | none => left; exact h
      | some y =>
          simp only [omax, Option.some.injEq] at h
          rcases Nat.le_total x y with hle | hle
          · right; rw [Nat.max_eq_right hle] at h; rw [h]
          · left; rw [Nat.max_eq_left hle] at h; rw [h]

theorem chunkEndSpace_bounds {maxSize : Nat} {text : List Char} {pos ce : Nat}
    (hce : pos < ce) :
    pos < chunkEndSpace maxSize text pos ce ∧ chunkEndSpace maxSize text pos ce ≤ ce := by
  unfold chunkEndSpace
  cases hr : rfind text [' '] pos ce with
  | none => exact ⟨hce, Nat.le_refl _⟩
  | some sp =>
      have h2 : sp + 1 ≤ ce := by simpa using (rfind_le hr).2
      dsimp only
      by_cases hsp : pos + maxSize / 3 < sp
      · rw [if_pos hsp]; omega
      · rw [if_neg hsp]; exact ⟨hce, Nat.le_refl _⟩

theorem chunkEndSentence_bounds {maxSize : Nat} {text : List Char} {pos ce : Nat}
    (hce : pos < ce) :
    pos < chunkEndSentence maxSize text pos ce ∧
      chunkEndSentence maxSize text pos ce ≤ ce := by
  unfold chunkEndSentence
  cases hr : omax (omax (rfind text ['.', ' '] pos ce) (rfind text ['!', ' '] pos ce))
      (rfind text ['?', ' '] pos ce) with
  | none => exact chunkEndSpace_bounds hce
  | some se =>
      have h2 : se + 2 ≤ ce := by
        rcases omax_eq_some hr with h | h
        · rcases omax_eq_some h with h' | h'
          · simpa using (rfind_le h').2
          · simpa using (rfind_le h').2
        · simpa using (rfind_le h).2
      dsimp only
      by_cases hse : pos + maxSize / 2 < se
      · rw [if_pos hse]; omega
      · rw [if_neg hse]; exact chunkEndSpace_bounds hce

theorem chunkEndLine_bounds {maxSize : Nat} {text : List Char} {pos ce : Nat}
    (hce : pos < ce) :
    pos < chunkEndLine maxSize text pos ce ∧ chunkEndLine maxSize text pos ce ≤ ce := by
  unfold chunkEndLine
  cases hr : rfind text ['\n'] pos ce with
  | none => exact chunkEndSentence_bounds hce
  | some lb =>
      have h2 : lb + 1 ≤ ce := by simpa using (rfind_le hr).2
      dsimp only
      by_cases hlb : pos + maxSize / 2 < lb
      · rw [if_pos hlb]; omega
      · rw [if_neg hlb]; exact chunkEndSentence_bounds hce

theorem chunkEndPara_bounds {maxSize : Nat} {text : List Char} {pos ce : Nat}
    (hce : pos < ce) :
    pos < chunkEndPara maxSize text pos ce ∧ chunkEndPara maxSize text pos ce ≤ ce := by
  unfold chunkEndPara
  cases hr : rfind text ['\n', '\n'] pos ce with
  | none => exact chunkEndLine_bounds hce
  | some pb =>
      have h2 : pb + 2 ≤ ce := by simpa using (rfind_le hr).2
      dsimp only
      by_cases hpb : pos + maxSize / 2 < pb
      · rw [if_pos hpb]; omega
      · rw [if_neg hpb]; exact chunkEndLine_bounds hce

theorem chunkEnd_bounds {maxSize : Nat} {text : List Char} {pos : Nat}
    (hpos : pos < text.length) (hms : 1 ≤ maxSize) :
    pos < chunkEnd maxSize text pos ∧
      chunkEnd maxSize text pos ≤ min (pos + maxSize) text.length := by
  unfold chunkEnd
  split
  · rename_i h
    exact chunkEndPara_bounds (by omega)
  · rename_i h
    exact ⟨by omega, Nat.le_refl _⟩

/-! ## Decomposing strip -/

theorem dropWhile_eq_strip_append (l : List Char) :
    l.dropWhile isPyWS =
      strip l ++ ((l.dropWhile isPyWS).reverse.takeWhile isPyWS).reverse := by
  conv_lhs => rw [← List.reverse_reverse (l.dropWhile isPyWS),
    ← List.takeWhile_append_dropWhile isPyWS (l.dropWhile isPyWS).reverse,
    List.reverse_append]
  rfl

theorem strip_decomp (l : List Char) :
    ∃ w1 w2 : List Char, w1.all isPyWS = true ∧ w2.all isPyWS = true ∧
      l = w1 ++ strip l ++ w2 := by
  refine ⟨l.takeWhile isPyWS, ((l.dropWhile isPyWS).reverse.takeWhile isPyWS).reverse,
    ?_, ?_, ?_⟩
  · exact List.all_eq_true.mpr fun x hx => List.mem_takeWhile_imp hx
  · exact List.all_eq_true.mpr fun x hx => List.mem_takeWhile_imp (List.mem_reverse.mp hx)
  · rw [List.append_assoc, ← dropWhile_eq_strip_append, List.takeWhile_append_dropWhile]

theorem strip_length_le (l : List Char) : (strip l).length ≤ l.length := by
  rcases strip_decomp l with ⟨w1, w2, _, _, h⟩
  conv_rhs => rw [h]
  simp [List.length_append]
  omega

theorem strip_eq_nil_all_ws {l : List Char} (h : strip l = []) :
    l.all isPyWS = true := by
  rcases strip_decomp l with ⟨w1, w2, h1, h2, hl⟩
  rw [h] at hl
  simp only [List.append_nil, List.nil_append] at hl
  rw [hl, List.all_append]
  simp [h1, h2]

theorem drop_eq_slice_append {text : List Char} {pos ce : Nat} (h : pos ≤ ce) :
    text.drop pos = slice text pos ce ++ text.drop ce := by
  unfold slice
  conv_lhs => rw [← List.take_append_drop (ce - pos) (text.drop pos)]
  rw [List.drop_drop, show pos + (ce - pos) = ce from by omega]

theorem slice_length_le (text : List Char) (pos ce : Nat) :
    (slice text pos ce).length ≤ ce - pos := by
  unfold slice
  rw [List.length_take]
  exact min_le_left _ _

/-! ## Reassembling the text from the chunks -/

/-- Interleave separator strings with chunks: glue [s0, s1, ..., sn] [c1, ..., cn]
is s0 ++ c1 ++ s1 ++ ... ++ cn ++ sn. -/
def glue : List (List Char) → List (List Char) → List Char
  | [s], [] => s
  | s :: ss, c :: cs => s ++ c ++ glue ss cs
  | _, _ => []

theorem glue_cons_cons (s c : List Char) (ss cs : List (List Char)) :
    glue (s :: ss) (c :: cs) = s ++ c ++ glue ss cs := by
  cases ss <;> rfl

theorem glue_absorb (a s : List Char) (ss cs : List (List Char))
    (hlen : ss.length = cs.length) :
    glue ((a ++ s) :: ss) cs = a ++ glue (s :: ss) cs := by
  cases cs with
  | nil =>
      have hss : ss = [] := List.length_eq_zero.mp (by simpa using hlen)
      subst hss
      rfl
  | cons c cs1 =>
      cases ss with
      | nil => simp at hlen
      | cons s1 ss1 =>
          rw [glue_cons_cons, glue_cons_cons]
          simp [List.append_assoc]

/-- The chunks are the text partitioned in order with only boundary whitespace
removed: whitespace separators interleave with them to rebuild the text. -/
def IsChunkInterleaving (text : List Char) (chunks : List (List Char)) : Prop :=
  ∃ seps : List (List Char), seps.length = chunks.length + 1 ∧
    (∀ s ∈ seps, s.all isPyWS = true) ∧ glue seps chunks = text

theorem splitGo_interleaving (maxSize : Nat) (text : List Char) (hms : 1 ≤ maxSize) :
    ∀ fuel pos, text.length ≤ pos + fuel →
      IsChunkInterleaving (text.drop pos) (splitGo maxSize text pos fuel) := by
  intro fuel
  induction fuel with
  | zero =>
      intro pos hf
      refine ⟨[[]], rfl, ?_, ?_⟩
      · intro s hs
        simp only [List.mem_singleton] at hs
        subst hs
        rfl
      · show glue [[]] [] = text.drop pos
        rw [List.drop_eq_nil_iff.mpr (by omega)]
        rfl
  | succ fuel ih =>
      intro pos hf
      unfold splitGo
      by_cases hpos : pos < text.length
      · rw [if_pos hpos]
        have hb := chunkEnd_bounds hpos hms
        obtain ⟨seps, hlen, hws, hglue⟩ :=
          ih (chunkEnd maxSize text pos) (by omega)
        obtain ⟨s0, srest, rfl⟩ : ∃ s0 srest, seps = s0 :: srest := by
          cases seps with
          | nil => simp at hlen
          | cons a b => exact ⟨a, b, rfl⟩
        have hl2 : srest.length =
            (splitGo maxSize text (chunkEnd maxSize text pos) fuel).length := by
          simpa using hlen
        have hdrop : text.drop pos =
            slice text pos (chunkEnd maxSize text pos) ++
              text.drop (chunkEnd maxSize text pos) :=
          drop_eq_slice_append (by omega)
        by_cases hnil : strip (slice text pos (chunkEnd maxSize text pos)) = []
        · rw [if_pos hnil]
          simp only [List.nil_append]
          refine ⟨(slice text pos (chunkEnd maxSize text pos) ++ s0) :: srest,
            by simpa using hlen, ?_, ?_⟩
          · intro s hs
            rcases List.mem_cons.mp hs with rfl | hs
            · rw [List.all_append, strip_eq_nil_all_ws hnil,
                hws s0 (List.mem_cons_self s0 srest)]
              rfl
            · exact hws s (List.mem_cons_of_mem _ hs)
          · rw [glue_absorb _ _ _ _ hl2, hglue, ← hdrop]
        · rw [if_neg hnil]
          rcases strip_decomp (slice text pos (chunkEnd maxSize text pos)) with
            ⟨w1, w2, hw1, hw2, hdec⟩
          refine ⟨w1 :: (w2 ++ s0) :: srest, by simpa using hlen, ?_, ?_⟩
          · intro s hs
            rcases List.mem_cons.mp hs with rfl | hs
            · exact hw1
            · rcases List.mem_cons.mp hs with rfl | hs
              · rw [List.all_append, hw2, hws s0 (List.mem_cons_self s0 srest)]
                rfl
              · exact hws s (List.mem_cons_of_mem _ hs)
          · rw [List.singleton_append, glue_cons_cons, glue_absorb _ _ _ _ hl2,
              hglue, hdrop]
            conv_rhs => rw [hdec]
            simp [List.append_assoc]
      · rw [if_neg hpos]
        refine ⟨[[]], rfl, ?_, ?_⟩
        · intro s hs
          simp only [List.mem_singleton] at hs
          subst hs
          rfl
        · show glue [[]] [] = text.drop pos
          rw [List.drop_eq_nil_iff.mpr (by omega)]
          rfl

theorem splitGo_mem (maxSize : Nat) (text : List Char) (hms : 1 ≤ maxSize) :
    ∀ fuel pos c, c ∈ splitGo maxSize text pos fuel →
      c ≠ [] ∧ c.length ≤ maxSize := by
  intro fuel
  induction fuel with
  | zero =>
      intro pos c hc
      simp [splitGo] at hc
  | succ fuel ih =>
      intro pos c hc
      unfold splitGo at hc
      by_cases hpos : pos < text.length
      · rw [if_pos hpos] at hc
        have hb := chunkEnd_bounds hpos hms
        rcases List.mem_append.mp hc with hc | hc
        · by_cases hnil : strip (slice text pos (chunkEnd maxSize text pos)) = []
          · rw [if_pos hnil] at hc
            simp at hc
          · rw [if_neg hnil] at hc
            simp only [List.mem_singleton] at hc
            subst hc
            refine ⟨hnil, ?_⟩
            calc (strip (slice text pos (chunkEnd maxSize text pos))).length
                ≤ (slice text pos (chunkEnd maxSize text pos)).length :=
                  strip_length_le _
              _ ≤ chunkEnd maxSize text pos - pos := slice_length_le text pos _
              _ ≤ maxSize := by omega
        · exact ih _ c hc
      · rw [if_neg hpos] at hc
        simp at hc

theorem split_into_chunks_sound (maxSize : Nat) (text : List Char)
    (hms : 1 ≤ maxSize) :
    (∀ c ∈ split_into_chunks maxSize text, c ≠ [] ∧ c.length ≤ maxSize) ∧
    IsChunkInterleaving text (split_into_chunks maxSize text) := by
  constructor
  · intro c hc
    exact splitGo_mem maxSize text hms text.length 0 c hc
  · have := splitGo_interleaving maxSize text hms text.length 0 (by omega)
    simpa using this

/-! ## Claim theorems for the chunker -/

/-- C1: whenever the text remaining after the current position is longer than
maxSize, split_into_chunks chooses the window end by priority: the last
paragraph break in the window with index above pos + maxSize/2, else the last
single newline above pos + maxSize/2, else the last sentence-ending '. ', '! '
or '? ' above pos + maxSize/2, else the last space above pos + maxSize/3, else
a hard cut at pos + maxSize, the chosen separator characters included in the
window — i.e. the code's window end agrees with the spec's wording. -/
theorem chunk_window_end_priority (maxSize : Nat) (text : List Char) (pos : Nat)
    (hrem : pos + maxSize < text.length) :
    chunkEnd maxSize text pos = chunkEndSpec maxSize text pos :=
  chunkEnd_eq_chunkEndSpec maxSize text pos

theorem chunk_window_end_priority_witness :
    0 + 4 < (['a', 'b', '.', ' ', 'c', 'd', 'e', 'f'] : List Char).length ∧
    chunkEnd 4 ['a', 'b', '.', ' ', 'c', 'd', 'e', 'f'] 0 =
      chunkEndSpec 4 ['a', 'b', '.', ' ', 'c', 'd', 'e', 'f'] 0 :=
  ⟨by decide, chunk_window_end_priority 4 ['a', 'b', '.', ' ', 'c', 'd', 'e', 'f'] 0
    (by decide)⟩

/-- C5: for every text and positive maxSize, every chunk returned by
split_into_chunks is non-empty and of length at most maxSize (unconditionally,
which subsumes the claim's long-word exception), and the chunks appear in
original text order: whitespace separators interleave with them, in order, to
rebuild the text. -/
theorem split_chunks_nonempty_bounded_ordered (maxSize : Nat) (text : List Char)
    (hms : 1 ≤ maxSize) :
    (∀ c ∈ split_into_chunks maxSize text, c ≠ [] ∧ c.length ≤ maxSize) ∧
    IsChunkInterleaving text (split_into_chunks maxSize text) :=
  split_into_chunks_sound maxSize text hms

theorem split_chunks_nonempty_bounded_ordered_witness :
    1 ≤ 5 ∧
    ((∀ c ∈ split_into_chunks 5 ['a', 'b', ' ', 'c', '\n', 'd', 'e', ' ', 'f'],
        c ≠ [] ∧ c.length ≤ 5) ∧
      IsChunkInterleaving ['a', 'b', ' ', 'c', '\n', 'd', 'e', ' ', 'f']
        (split_into_chunks 5 ['a', 'b', ' ', 'c', '\n', 'd', 'e', ' ', 'f'])) :=
  ⟨by decide, split_chunks_nonempty_bounded_ordered 5
    ['a', 'b', ' ', 'c', '\n', 'd', 'e', ' ', 'f'] (by decide)⟩

/-- C6: for every text and every positive maxSize, there are whitespace
separator strings s0, ..., sn interleaving with the returned chunks as
s0 ++ c1 ++ s1 ++ ... ++ cn ++ sn to reproduce the input text exactly. -/
theorem split_chunks_reassemble (maxSize : Nat) (text : List Char)
    (hms : 1 ≤ maxSize) :
    IsChunkInterleaving text (split_into_chunks maxSize text) :=
  (split_into_chunks_sound maxSize text hms).2

theorem split_chunks_reassemble_witness :
    1 ≤ 3 ∧
    IsChunkInterleaving ['x', 'y', ' ', 'z', 'w', ' ', 'q']
      (split_into_chunks 3 ['x', 'y', ' ', 'z', 'w', ' ', 'q']) :=
  ⟨by decide, split_chunks_reassemble 3 ['x', 'y', ' ', 'z', 'w', ' ', 'q'] (by decide)⟩

/-! ## Batch processor data model (batch_processor.py) -/

/-- BatchItemStatus (batch_processor.py lines 16-22). -/
inductive BatchItemStatus
  | pending
  | processing
  | completed
  | failed
  | cancelled
deriving DecidableEq

/-- A terminal status: COMPLETED, FAILED or CANCELLED. -/
def BatchItemStatus.isTerminal : BatchItemStatus → Bool
  | .completed => true
  | .failed => true
  | .cancelled => true
  | _ => false

/-- BatchItem (batch_processor.py lines 24-34). -/
structure BatchItem where
  input_file : String
  output_file : String
  status : BatchItemStatus
  progress : Nat
  message : String
  error : Option String
deriving DecidableEq

/-- BatchItem.__init__ (lines 27-34). -/
def BatchItem.new (inp outp : String) : BatchItem :=
  { input_file := inp, output_file := outp, status := .pending,
    progress := 0, message := "", error := none }

/-- The statistics dictionary built by get_stats (lines 204-227). -/
structure BatchStats where
  total : Nat
  pending : Nat
  processing : Nat
  completed : Nat
  failed : Nat
  cancelled : Nat
deriving DecidableEq

/-- The loop body of get_stats (lines 215-225): bump the count matching the
item's status. -/
def statsStep (st : BatchStats) (it : BatchItem) : BatchStats :=
  match it.status with
  | .pending => { st with pending := st.pending + 1 }
  | .processing => { st with processing := st.processing + 1 }
  | .completed => { st with completed := st.completed + 1 }
  | .failed => { st with failed := st.failed + 1 }
  | .cancelled => { st with cancelled := st.cancelled + 1 }

/-- BatchProcessor.get_stats (lines 204-227): total = len(items), then one
pass bumping per-status counts. -/
def get_stats (items : List BatchItem) : BatchStats :=
  items.foldl statsStep
    { total := items.length, pending := 0, processing := 0,
      completed := 0, failed := 0, cancelled := 0 }

/-- Number of items currently holding a given status. -/
def countStatus (st : BatchItemStatus) (items : List BatchItem) : Nat :=
  items.countP fun it => decide (it.status = st)

/-! ## The worker loop as a function (uninterrupted run) -/

/-- What the processor function does to one item: return a boolean or raise. -/
inductive POutcome
  | ok (success : Bool)
  | exn (detail : String)

/-- The worker-loop body for one dequeued item (batch_processor.py lines
168-192) in a run with no cancel interleaved, so is_running stays true and
the guard at line 179 passes: a non-PENDING item is skipped; otherwise the
status becomes PROCESSING and then COMPLETED/FAILED from the returned
boolean, or FAILED with error text and message "Error: " ++ e when the
processor raises e. -/
def runOnce (o : POutcome) (it : BatchItem) : BatchItem :=
  if it.status = .pending then
    match o with
    | .ok success =>
        { it with status := if success then .completed else .failed }
    | .exn e =>
        { it with status := .failed, error := some e, message := "Error: " ++ e }
  else it

/-- The while loop of _process_batch (lines 159-196) over the queue of item
indices, threading the item list. -/
def processQueue (f : Nat → POutcome) : List Nat → List BatchItem → List BatchItem
  | [], items => items
  | i :: rest, items =>
      match items[i]? with
      | some it => processQueue f rest (items.set i (runOnce (f i) it))
      | none => processQueue f rest items

/-- A full uninterrupted run over a freshly enqueued batch: the queue holds
every item index in order, as produced by add_item (lines 69-74). -/
def run_batch (f : Nat → POutcome) (items : List BatchItem) : List BatchItem :=
  processQueue f (List.range items.length) items

/-! ## cancel and clear_completed -/

/-- Runner state: the item list, the queue of not-yet-dequeued item indices,
the two flags, and the index the worker holds between dequeueing an item and
updating its status (the local variable item of _process_batch). -/
structure RunnerState where
  items : List BatchItem
  queue : List Nat
  is_running : Bool
  is_paused : Bool
  inflight : Option Nat
deriving DecidableEq

/-- The effect of cancel's marking loop on one item (lines 145-147). -/
def cancelMark (it : BatchItem) : BatchItem :=
  if it.status = .pending ∨ it.status = .processing then
    { it with status := .cancelled }
  else it

/-- The for-loop of cancel (lines 144-149): the updated item list together
with the arguments passed to on_item_status_changed, in order. -/
def cancelLoop : List BatchItem → List BatchItem × List BatchItem
  | [] => ([], [])
  | it :: rest =>
      if it.status = .pending ∨ it.status = .processing then
        ({ it with status := .cancelled } :: (cancelLoop rest).1,
         { it with status := .cancelled } :: (cancelLoop rest).2)
      else (it :: (cancelLoop rest).1, (cancelLoop rest).2)

/-- BatchProcessor.cancel (lines 136-155): when not running, return False and
change nothing; otherwise clear both flags, mark every PENDING or PROCESSING
item CANCELLED (emitting the status-changed callback for each), clear the
queue, and return True. The middle component records the callback arguments. -/
def cancel (s : RunnerState) : RunnerState × List BatchItem × Bool :=
  if s.is_running = false then (s, [], false)
  else
    ({ s with is_running := false
              is_paused := false
              items := (cancelLoop s.items).1
              queue := [] },
     (cancelLoop s.items).2, true)

/-- BatchProcessor.clear_completed (lines 81-85): keep the items whose status
is not in (COMPLETED, CANCELLED); the queue is untouched. -/
def clear_completed (s : RunnerState) : RunnerState :=
  { s with items := s.items.filter fun it =>
      decide (¬ (it.status = .completed ∨ it.status = .cancelled)) }

/-! ## Statistics lemmas -/

theorem foldl_statsStep (items : List BatchItem) (st : BatchStats) :
    items.foldl statsStep st =
      { total := st.total
        pending := st.pending + countStatus .pending items
        processing := st.processing + countStatus .processing items
        completed := st.completed + countStatus .completed items
        failed := st.failed + countStatus .failed items
        cancelled := st.cancelled + countStatus .cancelled items } := by
  induction items generalizing st with
  | nil => simp [countStatus]
  | cons it rest ih =>
      rw [List.foldl_cons, ih]
      cases h : it.status <;>
        simp [statsStep, countStatus, List.countP_cons, h] <;> omega

theorem countStatus_sum (items : List BatchItem) :
    countStatus .pending items + countStatus .processing items +
      countStatus .completed items + countStatus .failed items +
      countStatus .cancelled items = items.length := by
  induction items with
  | nil => simp [countStatus]
  | cons it rest ih =>
      cases h : it.status <;>
        simp only [countStatus, List.countP_cons, h, List.length_cons] at ih ⊢ <;>
        simp <;> omega

/-! ## Worker loop lemmas -/

theorem processQueue_getElem (f : Nat → POutcome) (q : List Nat)
    (items : List BatchItem) (hq : q.Nodup) (j : Nat) :
    (processQueue f q items)[j]? =
      if j ∈ q then (items[j]?).map (runOnce (f j)) else items[j]? := by
  induction q generalizing items with
  | nil => simp [processQueue]
  | cons i rest ih =>
      rcases List.nodup_cons.mp hq with ⟨hnotin, hnd⟩
      unfold processQueue
      cases hi : items[i]? with
      | none =>
          rw [ih _ hnd]
          by_cases hj : j = i
          · subst hj
            simp [hnotin, hi]
          · simp [List.mem_cons, hj]
      | some it =>
          rw [ih _ hnd]
          by_cases hj : j = i
          · subst hj
            have hlen : j < items.length := (List.getElem?_eq_some.mp hi).1
            rw [if_neg hnotin, List.getElem?_set_self (by simpa using hlen)]
            simp [List.mem_cons, hi]
          · rw [List.getElem?_set_ne (fun hc => hj hc.symm)]
            simp [List.mem_cons, hj]

theorem run_batch_getElem (f : Nat → POutcome) (items : List BatchItem) (j : Nat) :
    (run_batch f items)[j]? = (items[j]?).map (runOnce (f j)) := by
  unfold run_batch
  rw [processQueue_getElem f _ items (List.nodup_range _) j]
  by_cases hj : j < items.length
  · simp [List.mem_range, hj]
  · rw [if_neg (by simpa [List.mem_range] using hj),
      List.getElem?_eq_none (by omega)]
    rfl

theorem cancelMark_pp {it : BatchItem}
    (h : it.status = .pending ∨ it.status = .processing) :
    cancelMark it = { it with status := .cancelled } := by
  unfold cancelMark
  rw [if_pos h]

theorem cancelMark_keep {it : BatchItem}
    (h : ¬ (it.status = .pending ∨ it.status = .processing)) :
    cancelMark it = it := by
  unfold cancelMark
  rw [if_neg h]

theorem cancelLoop_eq (l : List BatchItem) :
    cancelLoop l =
      (l.map cancelMark,
       (l.filter fun it =>
         decide (it.status = .pending ∨ it.status = .processing)).map cancelMark) := by
  induction l with
  | nil => rfl
  | cons it rest ih =>
      unfold cancelLoop
      by_cases h : it.status = .pending ∨ it.status = .processing
      · rw [if_pos h, ih]
        simp [List.filter_cons, h, cancelMark]
      · rw [if_neg h, ih]
        simp [List.filter_cons, h, cancelMark]

/-! ## Claim theorems for the runner -/

/-- C3: if the processor raises exception text e while processing item K of a
freshly enqueued batch, the worker loop marks item K FAILED with the
exception's text in its message, does not abort the batch, and still
processes every other queued item, whose final status is determined by its
own processor outcome alone. -/
theorem processor_exception_isolated (f : Nat → POutcome) (items : List BatchItem)
    (K : Nat) (itK : BatchItem) (hK : items[K]? = some itK)
    (hpend : ∀ it ∈ items, it.status = BatchItemStatus.pending)
    (e : String) (hf : f K = .exn e) :
    (∃ it', (run_batch f items)[K]? = some it' ∧
      it'.status = .failed ∧ it'.message = "Error: " ++ e) ∧
    (∀ j itj, j ≠ K → items[j]? = some itj →
      ∃ it', (run_batch f items)[j]? = some it' ∧
        it'.status = (match f j with
          | .ok true => BatchItemStatus.completed
          | .ok false => BatchItemStatus.failed
          | .exn _ => BatchItemStatus.failed)) := by
  constructor
  · refine ⟨runOnce (f K) itK, ?_, ?_, ?_⟩
    · rw [run_batch_getElem, hK]
      rfl
    · rw [hf]
      simp [runOnce, hpend itK (List.getElem?_mem hK)]
    · rw [hf]
      simp [runOnce, hpend itK (List.getElem?_mem hK)]
  · intro j itj hj hij
    refine ⟨runOnce (f j) itj, ?_, ?_⟩
    · rw [run_batch_getElem, hij]
      rfl
    · have hp := hpend itj (List.getElem?_mem hij)
      cases hfj : f j with
      | ok b => cases b <;> simp [runOnce, hp]
      | exn d => simp [runOnce, hp]

/-- Two freshly enqueued items for the exception scenario. -/
def demoItems : List BatchItem :=
  [BatchItem.new "a.txt" "a.mp3", BatchItem.new "b.txt" "b.mp3"]

/-- A processor that raises "boom" on item 0 and succeeds elsewhere. -/
def demoF : Nat → POutcome :=
  fun i => if i = 0 then POutcome.exn "boom" else POutcome.ok true

theorem processor_exception_isolated_witness :
    demoItems[0]? = some (BatchItem.new "a.txt" "a.mp3") ∧
    (∀ it ∈ demoItems, it.status = BatchItemStatus.pending) ∧
    demoF 0 = POutcome.exn "boom" ∧
    (∃ it', (run_batch demoF demoItems)[0]? = some it' ∧
      it'.status = BatchItemStatus.failed ∧ it'.message = "Error: " ++ "boom") :=
  ⟨rfl, by decide, rfl,
    (processor_exception_isolated demoF demoItems 0 (BatchItem.new "a.txt" "a.mp3")
      rfl (by decide) "boom" rfl).1⟩

/-- C9: get_stats is consistent with the current item list: total is the list
length, each per-status count is the number of items holding that status, and
the five counts sum to total; concretely, a 3-item run whose processor
returns [true, false, true] yields completed 2, failed 1, total 3 and zero
elsewhere. -/
theorem get_stats_consistent :
    (∀ items : List BatchItem,
      (get_stats items).total = items.length ∧
      (get_stats items).pending = countStatus .pending items ∧
      (get_stats items).processing = countStatus .processing items ∧
      (get_stats items).completed = countStatus .completed items ∧
      (get_stats items).failed = countStatus .failed items ∧
      (get_stats items).cancelled = countStatus .cancelled items ∧
      (get_stats items).pending + (get_stats items).processing +
        (get_stats items).completed + (get_stats items).failed +
        (get_stats items).cancelled = (get_stats items).total) ∧
    get_stats (run_batch (fun i => POutcome.ok (i != 1))
        [BatchItem.new "a.txt" "a.mp3", BatchItem.new "b.txt" "b.mp3",
         BatchItem.new "c.txt" "c.mp3"]) =
      { total := 3, pending := 0, processing := 0, completed := 2, failed := 1,
        cancelled := 0 } := by
  constructor
  · intro items
    have hs := countStatus_sum items
    unfold get_stats
    rw [foldl_statsStep items]
    refine ⟨rfl, by simp, by simp, by simp, by simp, by simp, ?_⟩
    simp
    omega
  · rfl

/-- C4: cancel() while running returns True, empties the queue, stops the
runner, marks every PENDING or PROCESSING item CANCELLED, leaves every
COMPLETED or FAILED item entirely unchanged, and emits the status-changed
callback once per marked item, in list order; cancel() when not running
returns False and changes nothing. -/
theorem cancel_spec (s : RunnerState) :
    (s.is_running = true →
      (cancel s).2.2 = true ∧
      (cancel s).1.queue = [] ∧
      (cancel s).1.is_running = false ∧
      (∀ (j : Nat) (it : BatchItem), s.items[j]? = some it →
        ((it.status = .pending ∨ it.status = .processing) →
          (cancel s).1.items[j]? = some { it with status := .cancelled }) ∧
        ((it.status = .completed ∨ it.status = .failed) →
          (cancel s).1.items[j]? = some it)) ∧
      (cancel s).2.1 =
        (s.items.filter fun it =>
          decide (it.status = .pending ∨ it.status = .processing)).map cancelMark ∧
      (cancel s).2.1.length =
        s.items.countP fun it =>
          decide (it.status = .pending ∨ it.status = .processing)) ∧
    (s.is_running = false → cancel s = (s, [], false)) := by
  constructor
  · intro hrun
    unfold cancel
    rw [if_neg (by simp [hrun])]
    refine ⟨rfl, rfl, rfl, ?_, ?_, ?_⟩
    · intro j it hj
      rw [cancelLoop_eq]
      constructor
      · intro hpp
        rw [List.getElem?_map, hj, Option.map_some', cancelMark_pp hpp]
      · intro hcf
        rw [List.getElem?_map, hj, Option.map_some',
          cancelMark_keep (by rcases hcf with h | h <;> simp [h])]
    · rw [cancelLoop_eq]
    · rw [cancelLoop_eq]
      simp [List.countP_eq_length_filter]
  · intro hstop
    unfold cancel
    rw [if_pos hstop]

/-- A running state with one PROCESSING, one COMPLETED and one PENDING item. -/
def cancelDemo : RunnerState :=
  { items := [{ BatchItem.new "a.txt" "a.mp3" with status := .processing },
              { BatchItem.new "b.txt" "b.mp3" with status := .completed },
              BatchItem.new "c.txt" "c.mp3"]
    queue := [2]
    is_running := true
    is_paused := false
    inflight := some 0 }

theorem cancel_spec_witness :
    cancelDemo.is_running = true ∧ (cancel cancelDemo).2.2 = true ∧
      (cancel cancelDemo).1.queue = [] :=
  ⟨rfl, ((cancel_spec cancelDemo).1 rfl).1, ((cancel_spec cancelDemo).1 rfl).2.1⟩

/-- C10: clear_completed removes exactly the COMPLETED and CANCELLED items,
retains every PENDING, PROCESSING or FAILED item unchanged and in order (the
retained list is a sublist of the original), and the queue and flags are
untouched. -/
theorem clear_completed_spec (s : RunnerState) :
    (clear_completed s).queue = s.queue ∧
    (clear_completed s).is_running = s.is_running ∧
    (clear_completed s).is_paused = s.is_paused ∧
    List.Sublist (clear_completed s).items s.items ∧
    (∀ it ∈ s.items,
      it ∈ (clear_completed s).items ↔
        (it.status = .pending ∨ it.status = .processing ∨
          it.status = .failed)) := by
  refine ⟨rfl, rfl, rfl, List.filter_sublist _, ?_⟩
  intro it hmem
  unfold clear_completed
  simp only [List.mem_filter]
  constructor
  · rintro ⟨-, hp⟩
    cases h : it.status <;> simp [h] at hp ⊢
  · intro h
    refine ⟨hmem, ?_⟩
    rcases h with h | h | h <;> simp [h]

/-- A FAILED item, which clear_completed must keep despite its name. -/
def failedDemoItem : BatchItem :=
  { BatchItem.new "a.txt" "a.mp3" with status := .failed }

/-- A state holding one FAILED and one COMPLETED item. -/
def clearDemo : RunnerState :=
  { items := [failedDemoItem, { BatchItem.new "b.txt" "b.mp3" with status := .completed }]
    queue := [0, 1]
    is_running := false
    is_paused := false
    inflight := none }

theorem clear_completed_spec_witness :
    failedDemoItem ∈ clearDemo.items ∧
    (failedDemoItem ∈ (clear_completed clearDemo).items ↔
      (failedDemoItem.status = .pending ∨ failedDemoItem.status = .processing ∨
        failedDemoItem.status = .failed)) :=
  ⟨by decide, (clear_completed_spec clearDemo).2.2.2.2 failedDemoItem (by decide)⟩

/-! ## The runner as a transition system (terminal-status stability) -/

/-- One atomic step of the runner: the worker-loop pieces of _process_batch
(dequeue, lines 166-172; processor return, lines 176-182; processor
exception, lines 183-189; loop exit, lines 197-198) and the control calls
cancel (136-155), pause (120-126), resume (128-134) and add_item (69-74).
The processor call is in flight between a dequeue_start step and the matching
finish step, and a cancel call may interleave there. -/
inductive Step : RunnerState → RunnerState → Prop
  | dequeue_start (s : RunnerState) (i : Nat) (rest : List Nat) (it : BatchItem) :
      s.is_running = true → s.is_paused = false → s.inflight = none →
      s.queue = i :: rest → s.items[i]? = some it →
      it.status = .pending →
      Step s { s with queue := rest
                      items := s.items.set i { it with status := .processing }
                      inflight := some i }
  | dequeue_skip (s : RunnerState) (i : Nat) (rest : List Nat) (it : BatchItem) :
      s.is_running = true → s.is_paused = false → s.inflight = none →
      s.queue = i :: rest → s.items[i]? = some it →
      it.status ≠ .pending →
      Step s { s with queue := rest }
  | finish_ok (s : RunnerState) (i : Nat) (it : BatchItem) (success : Bool) :
      s.inflight = some i → s.items[i]? = some it →
      Step s { s with inflight := none
                      items := if s.is_running then
                          s.items.set i { it with status :=
                            if success then .completed else .failed }
                        else s.items }
  | finish_exn (s : RunnerState) (i : Nat) (it : BatchItem) (e : String) :
      s.inflight = some i → s.items[i]? = some it →
      Step s { s with inflight := none
                      items := s.items.set i
                        { it with status := .failed
                                  error := some e
                                  message := "Error: " ++ e } }
  | cancel_call (s : RunnerState) :
      Step s (cancel s).1
  | loop_exit (s : RunnerState) :
      s.is_running = true → s.inflight = none → s.queue = [] →
      Step s { s with is_running := false }
  | pause_call (s : RunnerState) :
      s.is_running = true →
      Step s { s with is_paused := true }
  | resume_call (s : RunnerState) :
      s.is_running = true → s.is_paused = true →
      Step s { s with is_paused := false }
  | add_item_call (s : RunnerState) (inp outp : String) :
      Step s { s with items := s.items ++ [BatchItem.new inp outp]
                      queue := s.queue ++ [s.items.length] }

/-- Reachability by a sequence of runner steps. -/
inductive Reachable (init : RunnerState) : RunnerState → Prop
  | refl : Reachable init init
  | tail {s t : RunnerState} : Reachable init s → Step s t → Reachable init t

/-- A freshly enqueued and started batch: every item PENDING, the queue
holding every item index in order, the worker between items, running and not
paused. -/
def isStartState (s : RunnerState) : Prop :=
  (∀ it ∈ s.items, it.status = BatchItemStatus.pending) ∧
  s.queue = List.range s.items.length ∧
  s.inflight = none ∧ s.is_running = true ∧ s.is_paused = false

/-- C2 as stated: along every reachable step sequence, an item that has
reached a terminal status is never changed again. -/
def TerminalStable : Prop :=
  ∀ init s t : RunnerState, isStartState init → Reachable init s → Step s t →
    ∀ (i : Nat) (it : BatchItem), s.items[i]? = some it →
      it.status.isTerminal = true →
      ∃ it', t.items[i]? = some it' ∧ it'.status = it.status

/-- Invariant: the item the worker holds in flight is PROCESSING, or already
CANCELLED by a cancel call that also stopped the runner. -/
def inflightOK (s : RunnerState) : Prop :=
  ∀ i : Nat, s.inflight = some i →
    ∃ it : BatchItem, s.items[i]? = some it ∧
      (it.status = .processing ∨
        (it.status = .cancelled ∧ s.is_running = false))

theorem cancel_not_running {s : RunnerState} (h : s.is_running = false) :
    (cancel s).1 = s := by
  unfold cancel
  rw [if_pos h]

theorem cancel_running {s : RunnerState} (h : ¬ s.is_running = false) :
    (cancel s).1 = { s with is_running := false
                            is_paused := false
                            items := (cancelLoop s.items).1
                            queue := [] } := by
  unfold cancel
  rw [if_neg h]

theorem step_inflightOK {s t : RunnerState} (hstep : Step s t)
    (hs : inflightOK s) : inflightOK t := by
  cases hstep with
  | dequeue_start j rest jt h1 h2 h3 h4 h5 h6 =>
      intro k hk
      have hk2 : some j = some k := hk
      injection hk2 with hk2
      subst hk2
      refine ⟨{ jt with status := .processing }, ?_, Or.inl rfl⟩
      have hlen : j < s.items.length := (List.getElem?_eq_some.mp h5).1
      show (s.items.set j { jt with status := .processing })[j]? = _
      rw [List.getElem?_set_self hlen]
  | dequeue_skip j rest jt h1 h2 h3 h4 h5 h6 =>
      intro k hk
      have hk2 : s.inflight = some k := hk
      rw [h3] at hk2
      cases hk2
  | finish_ok j jt success hj hjt =>
      intro k hk
      have hk2 : (none : Option Nat) = some k := hk
      cases hk2
  | finish_exn j jt e hj hjt =>
      intro k hk
      have hk2 : (none : Option Nat) = some k := hk
      cases hk2
  | cancel_call =>
      intro k hk
      by_cases hrun : s.is_running = false
      · have hk2 : s.inflight = some k := by
          rw [cancel_not_running hrun] at hk
          exact hk
        obtain ⟨it, hit, hst⟩ := hs k hk2
        refine ⟨it, ?_, ?_⟩
        · rw [cancel_not_running hrun]
          exact hit
        · rcases hst with hst | hst
          · exact Or.inl hst
          · refine Or.inr ⟨hst.1, ?_⟩
            rw [cancel_not_running hrun]
            exact hst.2
      · have hk2 : s.inflight = some k := by
          rw [cancel_running hrun] at hk
          exact hk
        obtain ⟨it, hit, hst⟩ := hs k hk2
        rcases hst with hst | ⟨_, hfalse⟩
        · refine ⟨{ it with status := .cancelled }, ?_, Or.inr ⟨rfl, ?_⟩⟩
          · rw [cancel_running hrun]
            show (cancelLoop s.items).1[k]? = _
            rw [cancelLoop_eq]
            simp only [List.getElem?_map, hit, Option.map_some']
            rw [cancelMark_pp (Or.inr hst)]
          · rw [cancel_running hrun]
        · exact absurd hfalse hrun
  | loop_exit h1 h2 h3 =>
      intro k hk
      have hk2 : s.inflight = some k := hk
      rw [h2] at hk2
      cases hk2
  | pause_call h1 =>
      intro k hk
      have hk2 : s.inflight = some k := hk
      obtain ⟨it, hit, hst⟩ := hs k hk2
      refine ⟨it, hit, ?_⟩
      rcases hst with hst | hst
      · exact Or.inl hst
      · exact Or.inr ⟨hst.1, hst.2⟩
  | resume_call h1 h2 =>
      intro k hk
      have hk2 : s.inflight = some k := hk
      obtain ⟨it, hit, hst⟩ := hs k hk2
      refine ⟨it, hit, ?_⟩
      rcases hst with hst | hst
      · exact Or.inl hst
      · exact Or.inr ⟨hst.1, hst.2⟩
  | add_item_call inp outp =>
      intro k hk
      have hk2 : s.inflight = some k := hk
      obtain ⟨it, hit, hst⟩ := hs k hk2
      have hlen : k < s.items.length := (List.getElem?_eq_some.mp hit).1
      refine ⟨it, ?_, ?_⟩
      · show (s.items ++ [BatchItem.new inp outp])[k]? = some it
        rw [List.getElem?_append_left hlen]
        exact hit
      · rcases hst with hst | hst
        · exact Or.inl hst
        · exact Or.inr ⟨hst.1, hst.2⟩

theorem reachable_inflightOK {init s : RunnerState} (hinit : isStartState init)
    (hr : Reachable init s) : inflightOK s := by
  induction hr with
  | refl =>
      intro k hk
      rw [hinit.2.2.1] at hk
      cases hk
  | tail hr hstep ih => exact step_inflightOK hstep ih

/-! ## The cancel/exception interleaving -/

/-- The single enqueued item of the interleaving scenario. -/
def cxItem : BatchItem := BatchItem.new "a.txt" "a.mp3"

/-- One item enqueued, batch started. -/
def cxInit : RunnerState :=
  { items := [cxItem]
    queue := [0]
    is_running := true
    is_paused := false
    inflight := none }

/-- After the worker dequeues item 0 and marks it PROCESSING. -/
def cxS1 : RunnerState :=
  { cxInit with queue := ([] : List Nat)
                items := cxInit.items.set 0 { cxItem with status := .processing }
                inflight := some 0 }

/-- After cancel() interleaves while the processor call is in flight. -/
def cxS2 : RunnerState := (cancel cxS1).1

/-- Item 0 as cancel left it. -/
def cxCanItem : BatchItem := { cxItem with status := .cancelled }

/-- After the in-flight processor call raises "boom": the exception handler
(batch_processor.py lines 183-189) runs with no is_running guard. -/
def cxS3 : RunnerState :=
  { cxS2 with inflight := none
              items := cxS2.items.set 0
                { cxCanItem with status := .failed
                                 error := some "boom"
                                 message := "Error: " ++ "boom" } }

/-- C2 counterexample: the claim as stated is false. In the reachable
interleaving dequeue-start, cancel, processor-exception, item 0 is CANCELLED
(terminal) and the exception handler then sets it to FAILED. -/
theorem terminal_stability_cx : ¬ TerminalStable := by
  intro h
  have hstart : isStartState cxInit := by
    refine ⟨?_, by decide, rfl, rfl, rfl⟩
    intro it hit
    simp only [cxInit, List.mem_singleton] at hit
    subst hit
    rfl
  have hstep1 : Step cxInit cxS1 :=
    Step.dequeue_start cxInit 0 [] cxItem rfl rfl rfl rfl rfl rfl
  have hstep2 : Step cxS1 cxS2 := Step.cancel_call cxS1
  have hstep3 : Step cxS2 cxS3 :=
    Step.finish_exn cxS2 0 cxCanItem "boom" rfl rfl
  have hreach : Reachable cxInit cxS2 :=
    Reachable.tail (Reachable.tail Reachable.refl hstep1) hstep2
  obtain ⟨it', hit', hstat⟩ := h cxInit cxS2 cxS3 hstart hreach hstep3 0 cxCanItem
    rfl (by decide)
  have hval : cxS3.items[0]? =
      some { cxCanItem with status := .failed
                            error := some "boom"
                            message := "Error: " ++ "boom" } := rfl
  rw [hval] at hit'
  injection hit' with hit'
  subst hit'
  exact absurd hstat (by decide)

/-- C2 amended: along every reachable step sequence, once an item's status is
terminal no later step changes it, except in one interleaving: an item marked
CANCELLED by cancel() while its processor call is in flight is set to FAILED
by the exception handler if that call then raises. -/
theorem terminal_stability_amended (init s t : RunnerState)
    (hinit : isStartState init) (hr : Reachable init s) (hstep : Step s t)
    (i : Nat) (it : BatchItem) (hi : s.items[i]? = some it)
    (hterm : it.status.isTerminal = true) :
    (∃ it', t.items[i]? = some it' ∧ it'.status = it.status) ∨
    (it.status = .cancelled ∧ s.inflight = some i ∧ s.is_running = false ∧
      ∃ it', t.items[i]? = some it' ∧ it'.status = .failed) := by
  have hinv := reachable_inflightOK hinit hr
  cases hstep with
  | dequeue_start j rest jt h1 h2 h3 h4 h5 h6 =>
      left
      by_cases hij : i = j
      · subst hij
        rw [hi] at h5
        injection h5 with h5
        subst h5
        rw [h6] at hterm
        exact absurd hterm (by decide)
      · refine ⟨it, ?_, rfl⟩
        show (s.items.set j _)[i]? = some it
        rw [List.getElem?_set_ne (fun hc => hij hc.symm)]
        exact hi
  | dequeue_skip j rest jt h1 h2 h3 h4 h5 h6 =>
      left
      exact ⟨it, hi, rfl⟩
  | finish_ok j jt success hj hjt =>
      left
      by_cases hrun : s.is_running = true
      · obtain ⟨kt, hkt, hst⟩ := hinv j hj
        rw [hjt] at hkt
        injection hkt with hkt
        by_cases hij : i = j
        · subst hij
          rw [hi] at hjt
          injection hjt with hjt
          subst hjt
          rcases hst with hst | ⟨_, hfalse⟩
          · rw [hkt, hst] at hterm
            exact absurd hterm (by decide)
          · rw [hrun] at hfalse
            cases hfalse
        · refine ⟨it, ?_, rfl⟩
          show (if s.is_running = true then _ else s.items)[i]? = some it
          rw [if_pos hrun, List.getElem?_set_ne (fun hc => hij hc.symm)]
          exact hi
      · refine ⟨it, ?_, rfl⟩
        show (if s.is_running = true then _ else s.items)[i]? = some it
        rw [if_neg hrun]
        exact hi
  | finish_exn j jt e hj hjt =>
      by_cases hij : i = j
      · subst hij
        rw [hi] at hjt
        injection hjt with hjt
        subst hjt
        obtain ⟨kt, hkt, hst⟩ := hinv i hj
        rw [hi] at hkt
        injection hkt with hkt
        subst hkt
        rcases hst with hst | ⟨hc, hrun⟩
        · rw [hst] at hterm
          exact absurd hterm (by decide)
        · right
          refine ⟨hc, hj, hrun, ?_⟩
          have hlen : i < s.items.length := (List.getElem?_eq_some.mp hi).1
          refine ⟨{ it with status := .failed
                            error := some e
                            message := "Error: " ++ e }, ?_, rfl⟩
          show (s.items.set i _)[i]? = _
          rw [List.getElem?_set_self hlen]
      · left
        refine ⟨it, ?_, rfl⟩
        show (s.items.set j _)[i]? = some it
        rw [List.getElem?_set_ne (fun hc => hij hc.symm)]
        exact hi
  | cancel_call =>
      left
      by_cases hrun : s.is_running = false
      · refine ⟨it, ?_, rfl⟩
        rw [cancel_not_running hrun]
        exact hi
      · have hk : cancelMark it = it := by
          refine cancelMark_keep ?_
          rintro (h | h) <;> rw [h] at hterm <;> exact absurd hterm (by decide)
        refine ⟨it, ?_, rfl⟩
        rw [cancel_running hrun]
        show (cancelLoop s.items).1[i]? = some it
        rw [cancelLoop_eq]
        simp only [List.getElem?_map, hi, Option.map_some']
        rw [hk]
  | loop_exit h1 h2 h3 =>
      left
      exact ⟨it, hi, rfl⟩
  | pause_call h1 =>
      left
      exact ⟨it, hi, rfl⟩
  | resume_call h1 h2 =>
      left
      exact ⟨it, hi, rfl⟩
  | add_item_call inp outp =>
      left
      refine ⟨it, ?_, rfl⟩
      have hlen : i < s.items.length := (List.getElem?_eq_some.mp hi).1
      show (s.items ++ [BatchItem.new inp outp])[i]? = some it
      rw [List.getElem?_append_left hlen]
      exact hi

theorem terminal_stability_amended_witness :
    isStartState cxInit ∧
    ((∃ it', cxS3.items[0]? = some it' ∧ it'.status = cxCanItem.status) ∨
      (cxCanItem.status = .cancelled ∧ cxS2.inflight = some 0 ∧
        cxS2.is_running = false ∧
        ∃ it', cxS3.items[0]? = some it' ∧ it'.status = .failed)) := by
  have hstart : isStartState cxInit := by
    refine ⟨?_, by decide, rfl, rfl, rfl⟩
    intro it hit
    simp only [cxInit, List.mem_singleton] at hit
    subst hit
    rfl
  refine ⟨hstart, ?_⟩
  exact terminal_stability_amended cxInit cxS2 cxS3 hstart
    (Reachable.tail (Reachable.tail Reachable.refl
      (Step.dequeue_start cxInit 0 [] cxItem rfl rfl rfl rfl rfl rfl))
      (Step.cancel_call cxS1))
    (Step.finish_exn cxS2 0 cxCanItem "boom" rfl rfl)
    0 cxCanItem rfl (by decide)

/-! ## The per-item processor: BatchTab._process_batch_item (batch_tab.py 500-584) -/

/-- Outcome of one synthesis call (api_client.text_to_speech), abstracted:
success, or failure with the provider's detail string. -/
inductive SynthRes
  | ok
  | err (detail : String)
deriving DecidableEq

/-- The observable result of _process_batch_item: the returned boolean, the
item's final message and progress, and the chunk indices for which the
synthesis operation was invoked, in call order. -/
structure ItemResult where
  success : Bool
  message : String
  progress : Nat
  calls : List Nat
deriving DecidableEq

/-- The multi-chunk for-loop (batch_tab.py lines 546-571) over the remaining
chunk indices: the indices synthesised, and the first failure (index, detail)
if any; on failure the loop returns at once. -/
def runChunks (synth : Nat → SynthRes) : List Nat → List Nat × Option (Nat × String)
  | [] => ([], none)
  | i :: rest =>
      match synth i with
      | .ok => ((runChunks synth rest).1.cons i, (runChunks synth rest).2)
      | .err d => ([i], some (i, d))

/-- BatchTab._process_batch_item (batch_tab.py lines 500-584), abstracted
over the chunk list produced by process_file and a synthesis oracle giving
each chunk's call outcome. Messages are the literal strings of the source;
the float truncation int((i/total)*100) of line 548 is modelled as Nat
division i*100/total. -/
def process_batch_item (synth : Nat → SynthRes) (chunks : List (List Char)) :
    ItemResult :=
  if chunks.length = 0 then
    { success := false, message := "Tệp văn bản trống hoặc không thể đọc",
      progress := 0, calls := [] }
  else if chunks.length = 1 then
    match synth 0 with
    | .ok => { success := true, message := "Hoàn thành", progress := 0, calls := [0] }
    | .err d =>
        { success := false, message := "Lỗi: " ++ d, progress := 0, calls := [0] }
  else
    match runChunks synth (List.range chunks.length) with
    | (cs, none) =>
        { success := true
          message := "Hoàn thành (" ++ toString chunks.length ++ " phần)"
          progress := (chunks.length - 1) * 100 / chunks.length
          calls := cs }
    | (cs, some (i, d)) =>
        { success := false
          message := "Lỗi ở phần " ++ toString (i + 1) ++ ": " ++ d
          progress := i * 100 / chunks.length
          calls := cs }

theorem runChunks_fail (synth : Nat → SynthRes) (k : Nat) (d : String)
    (hk : synth k = .err d) :
    ∀ (n s : Nat), s ≤ k → k < s + n → (∀ j, s ≤ j → j < k → synth j = .ok) →
      runChunks synth (List.range' s n) = (List.range' s (k + 1 - s), some (k, d)) := by
  intro n
  induction n with
  | zero =>
      intro s h1 h2 h3
      omega
  | succ n ih =>
      intro s h1 h2 h3
      rw [List.range'_succ]
      by_cases hs : s = k
      · subst hs
        unfold runChunks
        rw [hk]
        have : s + 1 - s = 1 := by omega
        rw [this]
        rfl
      · have hlt : s < k := by omega
        unfold runChunks
        rw [h3 s (Nat.le_refl s) hlt]
        rw [ih (s + 1) (by omega) (by omega) (fun j hj1 hj2 => h3 j (by omega) hj2)]
        have : k + 1 - s = (k - s) + 1 := by omega
        rw [this, List.range'_succ]
        have : k + 1 - (s + 1) = k - s := by omega
        rw [this]

/-- C7: for an item whose text splits into two or more chunks, synthesis is
invoked on the chunks sequentially in order; if the call for chunk k fails
(the first failure), no chunk after k is attempted, the whole item fails, and
the message identifies chunk k (1-based) and carries the failure detail. -/
theorem multi_chunk_fail_stops (synth : Nat → SynthRes) (chunks : List (List Char))
    (h2 : 2 ≤ chunks.length) (k : Nat) (hk : k < chunks.length) (d : String)
    (hfail : synth k = .err d) (hok : ∀ j < k, synth j = .ok) :
    (process_batch_item synth chunks).success = false ∧
    (process_batch_item synth chunks).calls = List.range (k + 1) ∧
    (process_batch_item synth chunks).message =
      "Lỗi ở phần " ++ toString (k + 1) ++ ": " ++ d := by
  have hrun : runChunks synth (List.range chunks.length) =
      (List.range (k + 1), some (k, d)) := by
    rw [List.range_eq_range', List.range_eq_range']
    have := runChunks_fail synth k d hfail chunks.length 0 (by omega) (by omega)
      (fun j hj1 hj2 => hok j hj2)
    simpa using this
  unfold process_batch_item
  rw [if_neg (by omega), if_neg (by omega), hrun]
  exact ⟨rfl, rfl, rfl⟩

theorem multi_chunk_fail_stops_witness :
    2 ≤ (split_into_chunks 2 ['a', ' ', 'b', ' ', 'c']).length ∧
    1 < (split_into_chunks 2 ['a', ' ', 'b', ' ', 'c']).length ∧
    (fun i => if i = 1 then SynthRes.err "quota" else SynthRes.ok) 1 =
      SynthRes.err "quota" ∧
    (process_batch_item (fun i => if i = 1 then SynthRes.err "quota" else SynthRes.ok)
        (split_into_chunks 2 ['a', ' ', 'b', ' ', 'c'])).success = false ∧
    (process_batch_item (fun i => if i = 1 then SynthRes.err "quota" else SynthRes.ok)
        (split_into_chunks 2 ['a', ' ', 'b', ' ', 'c'])).calls = List.range 2 ∧
    (process_batch_item (fun i => if i = 1 then SynthRes.err "quota" else SynthRes.ok)
        (split_into_chunks 2 ['a', ' ', 'b', ' ', 'c'])).message =
      "Lỗi ở phần " ++ toString 2 ++ ": " ++ "quota" := by
  refine ⟨by decide, by decide, rfl, ?_⟩
  exact multi_chunk_fail_stops
    (fun i => if i = 1 then SynthRes.err "quota" else SynthRes.ok)
    (split_into_chunks 2 ['a', ' ', 'b', ' ', 'c'])
    (by decide) 1 (by decide) "quota" rfl (by decide)

/-- C8 counterexample: on zero chunks the processor does return failure
before any synthesis call, but its message is the source's literal Vietnamese
string, not "empty or unreadable input". -/
theorem empty_input_message_cx :
    (process_batch_item (fun _ => SynthRes.ok) []).success = false ∧
    (process_batch_item (fun _ => SynthRes.ok) []).calls = [] ∧
    (process_batch_item (fun _ => SynthRes.ok) []).message ≠
      "empty or unreadable input" := by
  refine ⟨rfl, rfl, ?_⟩
  decide

/-- C8 amended: for an item whose source text yields zero chunks, the
processor returns failure immediately with the source's message "Tệp văn bản
trống hoặc không thể đọc" (Vietnamese for "text file empty or unreadable"),
synthesis is never invoked, and the worker loop then marks the item FAILED. -/
theorem empty_input_fails (synth : Nat → SynthRes) (maxSize : Nat)
    (text : List Char) (hchunks : split_into_chunks maxSize text = [])
    (it : BatchItem) (hpend : it.status = .pending) :
    (process_batch_item synth (split_into_chunks maxSize text)).success = false ∧
    (process_batch_item synth (split_into_chunks maxSize text)).message =
      "Tệp văn bản trống hoặc không thể đọc" ∧
    (process_batch_item synth (split_into_chunks maxSize text)).calls = [] ∧
    (runOnce (.ok (process_batch_item synth
        (split_into_chunks maxSize text)).success) it).status = .failed := by
  rw [hchunks]
  refine ⟨rfl, rfl, rfl, ?_⟩
  unfold runOnce
  rw [if_pos hpend]
  rfl

theorem empty_input_fails_witness :
    split_into_chunks 5 [' ', '\n', ' '] = [] ∧
    (BatchItem.new "a.txt" "a.mp3").status = BatchItemStatus.pending ∧
    ((process_batch_item (fun _ => SynthRes.ok)
        (split_into_chunks 5 [' ', '\n', ' '])).success = false ∧
      (process_batch_item (fun _ => SynthRes.ok)
        (split_into_chunks 5 [' ', '\n', ' '])).message =
        "Tệp văn bản trống hoặc không thể đọc" ∧
      (process_batch_item (fun _ => SynthRes.ok)
        (split_into_chunks 5 [' ', '\n', ' '])).calls = [] ∧
      (runOnce (.ok (process_batch_item (fun _ => SynthRes.ok)
          (split_into_chunks 5 [' ', '\n', ' '])).success)
        (BatchItem.new "a.txt" "a.mp3")).status = .failed) :=
  ⟨by decide, rfl, empty_input_fails (fun _ => SynthRes.ok) 5 [' ', '\n', ' ']
    (by decide) (BatchItem.new "a.txt" "a.mp3") rfl⟩

end TTS
